import Mathlib

/-!
Verification of the enva repository core: shell export formatting and
parsing (internal/shell), the SQLite-backed store operations
(internal/db), environment resolution with inheritance (internal/env),
root boundary discovery (internal/path), and the TUI session state
machine mutations and undo (internal/tui).

Strings from the Go source are embedded as `List Char`; byte-level
character comparisons from the source are expressed through `Char.toNat`
(the source only ever compares ASCII). Go maps are embedded as
association lists whose insert replaces in place, which fixes one
linearization of the nondeterministic Go map iteration order; all
stated results are independent of that order because the relevant key
sets are duplicate-free.
-/

namespace Shell

/-- The single-quote character, written numerically to keep the source
file free of quote literals. -/
def squote : Char := Char.ofNat 39

/-- The double-quote character. -/
def dquote : Char := Char.ofNat 34

/-- The backslash character. -/
def bslash : Char := Char.ofNat 92

/-- The hash character. -/
def hashChar : Char := Char.ofNat 35

/-- ASCII whitespace, as trimmed by strings.TrimSpace on ASCII input. -/
def isSpaceChar (c : Char) : Bool :=
  c.toNat = 32 || c.toNat = 9 || c.toNat = 10 || c.toNat = 13 ||
  c.toNat = 11 || c.toNat = 12

/-- First character of a valid key: letter or underscore
(internal/shell IsValidKey, first-byte check). -/
def isKeyStart (c : Char) : Bool :=
  (65 ≤ c.toNat && c.toNat ≤ 90) || (97 ≤ c.toNat && c.toNat ≤ 122) ||
  c.toNat = 95

/-- Subsequent character of a valid key: letter, digit or underscore. -/
def isKeyChar (c : Char) : Bool :=
  isKeyStart c || (48 ≤ c.toNat && c.toNat ≤ 57)

/-- IsValidKey from internal/shell: nonempty, starts with letter or
underscore, rest letters, digits or underscores. -/
def IsValidKey (key : List Char) : Bool :=
  match key with
  | [] => false
  | c :: rest => isKeyStart c && rest.all isKeyChar

/-- escapeSingleQuote from internal/shell: every embedded single quote
becomes quote backslash quote quote. -/
def escapeSingleQuote (s : List Char) : List Char :=
  s.flatMap fun c => if c = squote then [squote, bslash, squote, squote] else [c]

/-- FormatExport from internal/shell: export KEY=, a single-quoted
escaped value. -/
def FormatExport (key value : List Char) : List Char :=
  ("export ").toList ++ key ++ [Char.ofNat 61, squote] ++
    escapeSingleQuote value ++ [squote]

/-- Drop trailing ASCII whitespace. -/
def dropTrailingSpace (l : List Char) : List Char :=
  (l.reverse.dropWhile isSpaceChar).reverse

/-- strings.TrimSpace on ASCII input. -/
def trimSpace (l : List Char) : List Char :=
  dropTrailingSpace (l.dropWhile isSpaceChar)

/-- Index of the first space-hash pair, as strings.Index(s, space-hash)
in parseValueAndDescription. -/
def findSpaceHash : List Char → Option Nat
  | c :: d :: rest =>
    if c.toNat = 32 ∧ d = hashChar then some 0
    else (findSpaceHash (d :: rest)).map (· + 1)
  | _ => none

/-- parseValueAndDescription from internal/shell: extracts value and
trailing hash-description, honoring a leading quoted value (a hash
inside quotes is not a comment start). -/
def parseValueAndDescription (s : List Char) : List Char × List Char :=
  if s = [] then ([], [])
  else
    let trimmed := trimSpace s
    let quotedResult : Option (List Char × List Char) :=
      match trimmed with
      | [] => none
      | c :: rest =>
        if 2 ≤ trimmed.length ∧ (c = squote ∨ c = dquote) then
          match rest.findIdx? (fun d => d = c) with
          | some j => some (rest.take j, trimSpace (rest.drop (j + 1)))
          | none => none
        else none
    match quotedResult with
    | some (v, after) =>
      if after.head? = some hashChar then (v, trimSpace (after.drop 1))
      else (v, [])
    | none =>
      match findSpaceHash s with
      | some i => (s.take i, trimSpace (s.drop (i + 2)))
      | none => (s, [])

/-- ParseKeyValueWithDesc from internal/shell: trim, skip blanks and
comments, strip an export marker, split at the first equals sign,
validate the key, then parse value and description. -/
def ParseKeyValueWithDesc (line : List Char) :
    Option (List Char × List Char × List Char) :=
  let line1 := trimSpace line
  if line1 = [] ∨ line1.head? = some hashChar then none
  else
    let line2 :=
      if ("export ").toList.isPrefixOf line1 then trimSpace (line1.drop 7)
      else line1
    match line2.findIdx? (fun c => c = Char.ofNat 61) with
    | none => none
    | some idx =>
      let key := trimSpace (line2.take idx)
      let rest := line2.drop (idx + 1)
      if IsValidKey key then
        let vd := parseValueAndDescription rest
        some (key, vd.1, vd.2)
      else none

/-- ParseKeyValue from internal/shell: key and value only. -/
def ParseKeyValue (line : List Char) : Option (List Char × List Char) :=
  (ParseKeyValueWithDesc line).map fun r => (r.1, r.2.1)

/-- Split on newline characters, as strings.Split with a newline
separator. -/
def splitOnNewline : List Char → List (List Char)
  | [] => [[]]
  | x :: xs =>
    let r := splitOnNewline xs
    if x.toNat = 10 then [] :: r
    else
      match r with
      | h :: t => (x :: h) :: t
      | [] => [[x]]

/-- Go map insert embedded on association lists: replace in place if
the key is present, append otherwise. -/
def mapInsert (m : List (List Char × List Char)) (k v : List Char) :
    List (List Char × List Char) :=
  if m.any (fun p => p.1 = k) then
    m.map fun p => if p.1 = k then (k, v) else p
  else m ++ [(k, v)]

/-- Association list lookup. -/
def mapLookup (m : List (List Char × List Char)) (k : List Char) :
    Option (List Char) :=
  (m.find? (fun p => p.1 = k)).map (·.2)

/-- One line of ParseEnvFile: accumulate the parsed map and the invalid
lines. -/
def parseEnvLine (acc : List (List Char × List Char) × List (List Char))
    (line : List Char) :
    List (List Char × List Char) × List (List Char) :=
  let line := trimSpace line
  if line = [] ∨ line.head? = some hashChar then acc
  else
    match ParseKeyValue line with
    | some kv => (mapInsert acc.1 kv.1 kv.2, acc.2)
    | none => (acc.1, acc.2 ++ [line])

/-- ParseEnvFile from internal/shell: map of key to value with last
occurrence winning, plus the list of invalid lines in order. -/
def ParseEnvFile (content : List Char) :
    List (List Char × List Char) × List (List Char) :=
  (splitOnNewline content).foldl parseEnvLine ([], [])

/-- The key-value pairs of the parseable lines, in line order. -/
def okPairs (content : List Char) : List (List Char × List Char) :=
  (splitOnNewline content).filterMap fun line =>
    let t := trimSpace line
    if t = [] ∨ t.head? = some hashChar then none
    else ParseKeyValue t

end Shell

namespace Db

/-- One row of the env_vars table: primary key (path, profile, key).
The updated_at timestamp carries no semantics used by the claims and is
omitted. -/
structure EnvVar where
  path : String
  profile : String
  key : String
  value : String
deriving DecidableEq, Repr

/-- The env_vars table contents. -/
abbrev Store := List EnvVar

/-- GetVarsForPath from internal/db: all rows for a path and profile.
The SQL ORDER BY key only affects presentation order and is dropped. -/
def GetVarsForPath (s : Store) (path profile : String) : List EnvVar :=
  s.filter fun v => v.path == path && v.profile == profile

/-- The value stored at (path, profile, key), read the way the TUI
reads it: scan the rows of GetVarsForPath for the key. -/
def getVar (s : Store) (path profile key : String) : Option String :=
  ((GetVarsForPath s path profile).find? fun v => v.key == key).map (·.value)

/-- SetVar from internal/db: SQL upsert on the (path, profile, key)
primary key. The in-place SQL update is embedded as remove plus
append, which is the same map because the table holds at most one row
per primary key. -/
def SetVar (s : Store) (path profile key value : String) : Store :=
  (s.filter fun v => !(v.path == path && v.profile == profile && v.key == key)) ++
    [⟨path, profile, key, value⟩]

/-- DeleteVar from internal/db. -/
def DeleteVar (s : Store) (path profile key : String) : Store :=
  s.filter fun v => !(v.path == path && v.profile == profile && v.key == key)

/-- SetVarsBatch from internal/db: upsert every pair of the batch in
one transaction. The Go map argument is embedded as an association
list; its keys are duplicate-free, so iteration order is irrelevant. -/
def SetVarsBatch (s : Store) (path profile : String)
    (vars : List (String × String)) : Store :=
  vars.foldl (fun t kv => SetVar t path profile kv.1 kv.2) s

/-- DeleteVarsBatch from internal/db. -/
def DeleteVarsBatch (s : Store) (path profile : String)
    (keys : List String) : Store :=
  keys.foldl (fun t k => DeleteVar t path profile k) s

/-- Primary-key uniqueness of env_vars: no two rows share
(path, profile, key). This is the SQL PRIMARY KEY invariant. -/
def wfB : Store → Bool
  | [] => true
  | v :: rest =>
    !(rest.any fun w => w.path == v.path && w.profile == v.profile && w.key == v.key) &&
      wfB rest

end Db

namespace Env

/-- ResolvedVar from internal/env: value with override provenance.
The Go zero value of OverrodePath is the empty string. -/
structure ResolvedVar where
  key : String
  value : String
  definedAtPath : String
  overrode : Bool
  overrodePath : String
deriving DecidableEq, Repr

/-- One Go map assignment of the Resolve merge loop: insert the key as
non-overridden, or replace the shallower entry recording it as the
override origin. The resolved map is embedded as an association list
whose insert replaces in place. -/
def applyVar (acc : List ResolvedVar) (path key value : String) :
    List ResolvedVar :=
  if acc.any (fun e => e.key == key) then
    acc.map fun e =>
      if e.key == key then ⟨key, value, path, true, e.definedAtPath⟩ else e
  else acc ++ [⟨key, value, path, false, ""⟩]

/-- Merge all vars stored at one chain scope into the resolved map.
varsByPath of the source groups the bulk-loaded rows by path, which per
path equals GetVarsForPath; Go map iteration order over the keys is
arbitrary and the embedding fixes row order. -/
def mergePath (s : Db.Store) (profile : String) (acc : List ResolvedVar)
    (path : String) : List ResolvedVar :=
  (Db.GetVarsForPath s path profile).foldl
    (fun a v => applyVar a path v.key v.value) acc

/-- The merge fold of Resolver.Resolve from internal/env: fold the
chain in order, root first, target last. Canonicalization, root
discovery and chain building are the callers responsibility here and
are modeled separately. -/
def Resolve (s : Db.Store) (profile : String) (chain : List String) :
    List ResolvedVar :=
  chain.foldl (mergePath s profile) []

/-- Lookup in the resolved map. -/
def findResolved (rs : List ResolvedVar) (key : String) : Option ResolvedVar :=
  rs.find? fun e => e.key == key

/-- The chain scopes that define a key, shallowest first. -/
def definers (s : Db.Store) (profile : String) (chain : List String)
    (key : String) : List String :=
  chain.filter fun p => (Db.getVar s p profile key).isSome

/-- Resolver.SetVar from internal/env: canonicalize the path, fail if
that fails, otherwise write at the canonical path. The path
canonicalizer (filepath.Abs plus EvalSymlinks) is an external effect
and enters as a function argument; none is a canonicalization error. -/
def canonSetVar (canon : String → Option String) (s : Db.Store)
    (profile path key value : String) : Option Db.Store :=
  (canon path).map fun c => Db.SetVar s c profile key value

/-- Resolver.DeleteVar from internal/env. -/
def canonDeleteVar (canon : String → Option String) (s : Db.Store)
    (profile path key : String) : Option Db.Store :=
  (canon path).map fun c => Db.DeleteVar s c profile key

/-- Resolver.SetVarsBatch from internal/env. -/
def canonSetVarsBatch (canon : String → Option String) (s : Db.Store)
    (profile path : String) (vars : List (String × String)) :
    Option Db.Store :=
  (canon path).map fun c => Db.SetVarsBatch s c profile vars

/-- Resolver.DeleteVarsBatch from internal/env. -/
def canonDeleteVarsBatch (canon : String → Option String) (s : Db.Store)
    (profile path : String) (keys : List String) : Option Db.Store :=
  (canon path).map fun c => Db.DeleteVarsBatch s c profile keys

/-- Resolver.SyncLocalVars from internal/env: canonicalize, delete the
local keys absent from newVars, then upsert newVars. The source skips
the two batch calls when their argument is empty; the embedded batch
operations are the identity on empty input, so the guards are
dropped. -/
def canonSyncLocalVars (canon : String → Option String) (s : Db.Store)
    (profile path : String) (newVars : List (String × String)) :
    Option Db.Store :=
  (canon path).map fun c =>
    let existing := Db.GetVarsForPath s c profile
    let toDelete :=
      (existing.filter fun v => !(newVars.any fun kv => kv.1 == v.key)).map (·.key)
    Db.SetVarsBatch (Db.DeleteVarsBatch s c profile toDelete) c profile newVars

end Env

namespace Path

/-- The filesystem facts FindRoot consults, over directories given as
canonical component lists (the empty list is the filesystem root):
whether a directory holds a regular .enva marker file, and whether it
holds a .git directory. os.Stat errors count as absence in the
source. -/
structure FileSystem where
  hasMarkerFile : List String → Bool
  hasGitDir : List String → Bool

/-- FindRoot from internal/path: walk up from a canonical directory;
at each level the .enva marker file wins over the .git directory; stop
at the filesystem root, whose parent is itself. -/
def FindRoot (fs : FileSystem) (d : List String) : List String :=
  if fs.hasMarkerFile d then d
  else if fs.hasGitDir d then d
  else if d = [] then d
  else FindRoot fs d.dropLast
termination_by d.length
decreasing_by
  simp [List.length_dropLast]
  cases d with
  | nil => simp_all
  | cons a l => simp

/-- The ancestor walk from a directory up to and including the
filesystem root. -/
def ancestors (d : List String) : List (List String) :=
  d :: (if d = [] then [] else ancestors d.dropLast)
termination_by d.length
decreasing_by
  simp [List.length_dropLast]
  cases d with
  | nil => simp_all
  | cons a l => simp

end Path

namespace Tui

/-- UndoAction from internal/tui: one retained slot describing how to
reverse the most recent local mutation. -/
structure UndoAction where
  type : String
  key : String
  oldVal : String
  newVal : String
  hadVal : Bool
  batch : List (String × String)
  deleted : List String
deriving DecidableEq, Repr

/-- The bulk modal error line: none, the listed invalid lines, or the
no-valid-lines message. -/
inductive BulkError where
  | clear : BulkError
  | invalidLines : List (List Char) → BulkError
  | noValid : BulkError
deriving DecidableEq, Repr

/-- The part of the TUI Model the mutation and undo claims concern:
the backing store, the canonical current directory (ctx.CwdReal), the
active profile, the single-slot undo stack, and the surfaced
messages. -/
structure TuiState where
  store : Db.Store
  cwd : String
  profile : String
  undoStack : List UndoAction
  toast : String
  toastIsErr : Bool
  editError : Bool
  bulkError : BulkError
deriving DecidableEq, Repr

/-- pushUndo from internal/tui: only the last action is kept. -/
def pushUndo (a : UndoAction) (st : TuiState) : TuiState :=
  { st with undoStack := [a] }

/-- popUndo from internal/tui. -/
def popUndo (stack : List UndoAction) : Option (UndoAction × List UndoAction) :=
  match stack.getLast? with
  | none => none
  | some a => some (a, stack.dropLast)

/-- The keyRegex of internal/tui, anchored letter-or-underscore then
letters-digits-underscores: it denotes exactly the language of
shell.IsValidKey. -/
def keyRegexMatch (k : String) : Bool :=
  Shell.IsValidKey k.toList

/-- Model.saveEdit from internal/tui: validate the key (reject with an
inline error and no write), capture the prior local value for undo,
upsert, push the set undo action. Context reload re-derives views and
does not touch the store. -/
def saveEdit (st : TuiState) (key value : String) : TuiState :=
  if !keyRegexMatch key then { st with editError := true }
  else
    let found := (Db.GetVarsForPath st.store st.cwd st.profile).find?
      fun v => v.key == key
    let st1 := { st with
      store := Db.SetVar st.store st.cwd st.profile key value,
      editError := false }
    pushUndo ⟨"set", key, (found.map (·.value)).getD (""), value,
      found.isSome, [], []⟩ st1

/-- Model.confirmDelete from internal/tui: capture the prior value
(empty if the scan finds none, with HadVal pushed as true
unconditionally), delete, push the delete undo action. -/
def confirmDelete (st : TuiState) (key : String) : TuiState :=
  let found := (Db.GetVarsForPath st.store st.cwd st.profile).find?
    fun v => v.key == key
  let st1 := { st with store := Db.DeleteVar st.store st.cwd st.profile key }
  pushUndo ⟨"delete", key, (found.map (·.value)).getD (""), "", true, [], []⟩ st1

/-- Model.saveBulkImport from internal/tui: parse the pasted text; any
invalid line rejects the whole import with the lines surfaced; no
valid line rejects it too; otherwise snapshot the prior local map for
undo and upsert all parsed pairs as one batch. -/
def saveBulkImport (st : TuiState) (content : List Char) : TuiState :=
  let pr := Shell.ParseEnvFile content
  if pr.2 ≠ [] then { st with bulkError := BulkError.invalidLines pr.2 }
  else if pr.1 = [] then { st with bulkError := BulkError.noValid }
  else
    let parsed := pr.1.map fun p => (p.1.asString, p.2.asString)
    let oldMap := (Db.GetVarsForPath st.store st.cwd st.profile).map
      fun v => (v.key, v.value)
    let st1 := { st with
      store := Db.SetVarsBatch st.store st.cwd st.profile parsed,
      bulkError := BulkError.clear }
    pushUndo ⟨"import", "", "", "", false, oldMap, []⟩ st1

/-- Model.handleUndo from internal/tui: pop the single slot; replay the
inverse for set and delete; for import only report that undo is not
fully supported, leaving the store untouched. -/
def handleUndo (st : TuiState) : TuiState :=
  match popUndo st.undoStack with
  | none => { st with toast := ("Nothing to undo"), toastIsErr := true }
  | some (a, rest) =>
    let st1 := { st with undoStack := rest }
    if a.type = ("set") then
      if a.hadVal then
        { st1 with
          store := Db.SetVar st1.store st1.cwd st1.profile a.key a.oldVal,
          toast := ("Undone"), toastIsErr := false }
      else
        { st1 with
          store := Db.DeleteVar st1.store st1.cwd st1.profile a.key,
          toast := ("Undone"), toastIsErr := false }
    else if a.type = ("delete") then
      { st1 with
        store := Db.SetVar st1.store st1.cwd st1.profile a.key a.oldVal,
        toast := ("Undone"), toastIsErr := false }
    else if a.type = ("import") then
      { st1 with toast := ("Import undo not fully supported"), toastIsErr := true }
    else
      { st1 with toast := ("Undone"), toastIsErr := false }

/-- The local key-value pairs at the current directory, read straight
from the store. -/
def localPairs (st : TuiState) : List (String × String) :=
  (Db.GetVarsForPath st.store st.cwd st.profile).map fun v => (v.key, v.value)

/-- The cursor, scroll and result-list part of the TUI Model, for the
result maintenance claim. Go ints are embedded as Int. -/
structure UiState where
  results : List (String × String)
  cursor : Int
  offset : Int
  height : Int
deriving DecidableEq, Repr

/-- Model.refreshResults from internal/tui: swap in the freshly
computed result list (the ranking engine output enters as an
argument), then clamp the cursor into bounds. The offset is not
touched. -/
def refreshResults (st : UiState) (newResults : List (String × String)) :
    UiState :=
  let st1 := { st with results := newResults }
  let c1 : Int :=
    if st1.cursor ≥ (st1.results.length : Int) then (st1.results.length : Int) - 1
    else st1.cursor
  let c2 : Int := if c1 < 0 then 0 else c1
  { st1 with cursor := c2 }

/-- Model.visibleRows from internal/tui. -/
def visibleRows (st : UiState) : Int :=
  if st.height - 6 < 1 then 1 else st.height - 6

/-- Model.ensureCursorVisible from internal/tui: pull the offset up or
down just enough to show the cursor. -/
def ensureCursorVisible (st : UiState) : UiState :=
  if st.cursor < st.offset then { st with offset := st.cursor }
  else if st.cursor ≥ st.offset + visibleRows st then
    { st with offset := st.cursor - visibleRows st + 1 }
  else st

end Tui

namespace Env

/-- The expected effect of one definer on the running resolved entry
for a key: first definer inserts non-overridden, later definers
replace and record the previous holder as override origin. -/
def overlayEntry (path key value : String) (e : Option ResolvedVar) : ResolvedVar :=
  match e with
  | none => ⟨key, value, path, false, ""⟩
  | some prev => ⟨key, value, path, true, prev.definedAtPath⟩

/-- One definer step of the expected fold over the defining scopes. -/
def overlayStep (s : Db.Store) (profile key : String) (e : Option ResolvedVar)
    (p : String) : Option ResolvedVar :=
  some (overlayEntry p key ((Db.getVar s p profile key).getD ("")) e)

end Env

/-- A concrete canonicalizer for the witness: two aliases of one real
directory, everything else unresolvable. -/
def canonW : String → Option String := fun x =>
  if x = ("/link") ∨ x = ("/real") then some ("/real") else none
/-- The bulk-import undo scenario: an empty local scope at one
directory under the default profile. -/
def importUndoScenario : Tui.TuiState :=
  ⟨[], "/p", "default", [], "", false, false, Tui.BulkError.clear⟩
/-- The set and delete undo scenario: one local variable K=old at one
directory. -/
def undoScenario : Tui.TuiState :=
  ⟨[⟨("/p"), ("default"), ("K"), ("old")⟩], ("/p"), ("default"), [], "",
    false, false, Tui.BulkError.clear⟩
/-- The parsed key-value pairs of a bulk-import text, in line order,
converted to strings as saveBulkImport stores them: the batch of claim
C6, whose last occurrence per key wins. -/
def okPairsStr (content : List Char) : List (String × String) :=
  (Shell.okPairs content).map fun p => (p.1.asString, p.2.asString)
/-- The value of the C2 example, it-apostrophe-s a test, built without
quote literals. -/
def itsATest : List Char :=
  ("it").toList ++ [Shell.squote] ++ ("s a test").toList
/-- The export line the spec displays for the C2 example. -/
def expectedExportLine : List Char :=
  ("export KEY=").toList ++ [Shell.squote] ++ ("it").toList ++
    [Shell.squote, Shell.bslash, Shell.squote, Shell.squote] ++
    ("s a test").toList ++ [Shell.squote]
/-- A three-layer store for the resolution witness: K defined at the
root, a middle scope and the target. -/
def c1Store : Db.Store :=
  [⟨("/a"), ("default"), ("K"), ("v1")⟩,
   ⟨("/a/b"), ("default"), ("K"), ("v2")⟩,
   ⟨("/a/b/c"), ("default"), ("K"), ("v3")⟩]
/-- The chain for the resolution witness. -/
def c1Chain : List String := [("/a"), ("/a/b"), ("/a/b/c")]

namespace Aux

theorem find?_filterB {α : Type} (l : List α) (P K : α → Bool) :
    (l.filter P).find? K = l.find? fun a => P a && K a := by
  induction l with
  | nil => rfl
  | cons a t ih =>
    by_cases hP : P a <;> by_cases hK : K a <;>
      simp [List.filter_cons, List.find?_cons, hP, hK, ih]

theorem find?_and_left {α : Type} (l : List α) (P Q : α → Bool)
    (h : ∀ a, P a = true → Q a = true) :
    (l.find? fun a => Q a && P a) = l.find? P := by
  induction l with
  | nil => rfl
  | cons a t ih =>
    by_cases hP : P a
    · simp [List.find?_cons, hP, h a hP]
    · simp [List.find?_cons, hP, ih, Bool.and_eq_true]

theorem find?_and_none {α : Type} (l : List α) (P Q : α → Bool)
    (h : ∀ a, P a = true → Q a = false) :
    (l.find? fun a => Q a && P a) = none := by
  induction l with
  | nil => rfl
  | cons a t ih =>
    by_cases hP : P a
    · simp [List.find?_cons, h a hP, ih]
    · simp [List.find?_cons, hP, ih]

theorem filter_filterB_absorb {α : Type} (l : List α) (P Q : α → Bool)
    (h : ∀ a, P a = true → Q a = true) :
    (l.filter Q).filter P = l.filter P := by
  induction l with
  | nil => rfl
  | cons a t ih =>
    by_cases hP : P a
    · simp [List.filter_cons, hP, h a hP, ih]
    · by_cases hQ : Q a <;> simp [List.filter_cons, hP, hQ, ih]

theorem dropWhile_eq_self_of_head {α : Type} (l : List α) (p : α → Bool)
    (h : l.head?.all fun c => !p c) : l.dropWhile p = l := by
  cases l with
  | nil => rfl
  | cons a t =>
    simp only [List.head?_cons, Option.all_some, Bool.not_eq_true'] at h
    simp [List.dropWhile_cons, h]

end Aux

/-- Claim C4: for every resolvable directory, root discovery returns
the closest directory on the ancestor walk (the directory itself
included) holding either the .enva marker file or the .git directory,
the marker winning ties within a directory, and degrades to the
filesystem root when no directory on the walk holds either; it never
fails. -/
theorem findRoot_returns_closest_boundary (fs : Path.FileSystem) (d : List String) :
    Path.FindRoot fs d =
      ((Path.ancestors d).find? fun a => fs.hasMarkerFile a || fs.hasGitDir a).getD [] := by
  induction d using List.reverseRecOn with
  | nil =>
    rw [Path.FindRoot, Path.ancestors]
    by_cases h1 : fs.hasMarkerFile [] <;> by_cases h2 : fs.hasGitDir [] <;>
      simp [h1, h2]
  | append_singleton l a ih =>
    rw [Path.FindRoot, Path.ancestors]
    have hne : l ++ [a] ≠ [] := by simp
    by_cases h1 : fs.hasMarkerFile (l ++ [a]) <;>
      by_cases h2 : fs.hasGitDir (l ++ [a]) <;>
        simp [h1, h2, hne, List.dropLast_concat, ih]

/-- Claim C10: every Resolver mutation canonicalizes its path before
touching the store, so two spellings with the same canonical form
(symlink alias, relative form) produce identical effects, and a path
that fails to canonicalize makes the mutation fail with no write. -/
theorem resolver_mutations_canonicalize (canon : String → Option String)
    (s : Db.Store) (profile k v : String) (vars : List (String × String))
    (keys : List String) (p q : String) :
    (canon p = canon q →
      Env.canonSetVar canon s profile p k v = Env.canonSetVar canon s profile q k v ∧
      Env.canonDeleteVar canon s profile p k = Env.canonDeleteVar canon s profile q k ∧
      Env.canonSetVarsBatch canon s profile p vars = Env.canonSetVarsBatch canon s profile q vars ∧
      Env.canonDeleteVarsBatch canon s profile p keys = Env.canonDeleteVarsBatch canon s profile q keys ∧
      Env.canonSyncLocalVars canon s profile p vars = Env.canonSyncLocalVars canon s profile q vars) ∧
    (canon p = none →
      Env.canonSetVar canon s profile p k v = none ∧
      Env.canonDeleteVar canon s profile p k = none ∧
      Env.canonSetVarsBatch canon s profile p vars = none ∧
      Env.canonDeleteVarsBatch canon s profile p keys = none ∧
      Env.canonSyncLocalVars canon s profile p vars = none) := by
  constructor <;> intro h <;>
    simp [Env.canonSetVar, Env.canonDeleteVar, Env.canonSetVarsBatch,
      Env.canonDeleteVarsBatch, Env.canonSyncLocalVars, h]

/-- Witness for claim C10 at a concrete canonicalizer, store and
inputs. -/
theorem resolver_mutations_canonicalize_witness :
    (Env.canonSetVar canonW [] "default" "/link" "K" "V" =
      Env.canonSetVar canonW [] "default" "/real" "K" "V") ∧
    Env.canonSetVar canonW [] "default" "/missing" "K" "V" = none := by
  refine ⟨?_, ?_⟩
  · exact ((resolver_mutations_canonicalize canonW [] "default" "K" "V" [] []
      ("/link") ("/real")).1 (by decide)).1
  · exact ((resolver_mutations_canonicalize canonW [] "default" "K" "V" [] []
      ("/missing") ("/real")).2 (by decide)).1

/-- Claim C8 counterexample: after a result recomputation that shrinks
the list, the cursor is clamped but the scroll offset is not adjusted,
leaving the cursor outside the visible window. With height 7 one row
is visible; offset 5 and a recomputed list of 3 entries clamp the
cursor to 2, which the window starting at 5 does not contain. -/
theorem refreshResults_leaves_cursor_outside_window :
    ¬(((Tui.refreshResults ⟨List.replicate 6 (("K"), ("V")), 5, 5, 7⟩
        (List.replicate 3 (("K"), ("V")))).offset ≤
       (Tui.refreshResults ⟨List.replicate 6 (("K"), ("V")), 5, 5, 7⟩
        (List.replicate 3 (("K"), ("V")))).cursor) ∧
      ((Tui.refreshResults ⟨List.replicate 6 (("K"), ("V")), 5, 5, 7⟩
        (List.replicate 3 (("K"), ("V")))).cursor <
       (Tui.refreshResults ⟨List.replicate 6 (("K"), ("V")), 5, 5, 7⟩
        (List.replicate 3 (("K"), ("V")))).offset +
       Tui.visibleRows (Tui.refreshResults ⟨List.replicate 6 (("K"), ("V")), 5, 5, 7⟩
        (List.replicate 3 (("K"), ("V")))))) := by
  decide

/-- Claim C8 as amended: on every recomputation the displayed list is
replaced wholesale and the cursor is clamped into bounds (0 for an
empty list), while the scroll offset is left unchanged; the offset is
adjusted, just enough to keep the cursor inside the visible window,
only by the explicit cursor movement path through
ensureCursorVisible. -/
theorem refreshResults_clamps_cursor_and_keeps_offset
    (st : Tui.UiState) (rs : List (String × String)) :
    (Tui.refreshResults st rs).results = rs ∧
    0 ≤ (Tui.refreshResults st rs).cursor ∧
    (Tui.refreshResults st rs).cursor < max (rs.length : Int) 1 ∧
    (Tui.refreshResults st rs).offset = st.offset ∧
    (Tui.ensureCursorVisible st).cursor = st.cursor ∧
    (Tui.ensureCursorVisible st).offset ≤ st.cursor ∧
    st.cursor < (Tui.ensureCursorVisible st).offset + Tui.visibleRows st := by
  refine ⟨rfl, ?_, ?_, rfl, ?_, ?_, ?_⟩
  · simp only [Tui.refreshResults]
    split_ifs <;> omega
  · rw [lt_max_iff]
    simp only [Tui.refreshResults]
    split_ifs <;> omega
  · simp only [Tui.ensureCursorVisible]
    split_ifs <;> rfl
  · simp only [Tui.ensureCursorVisible, Tui.visibleRows]
    split_ifs <;> (try dsimp only) <;> omega
  · simp only [Tui.ensureCursorVisible, Tui.visibleRows]
    split_ifs <;> (try dsimp only) <;> omega

/-- Claim C3 evaluated at the failing input: importing the single line
A=1 into an empty local scope and then undoing leaves the imported
variable in place (the prior local map was empty), and the session
merely reports that import undo is not fully supported. The claimed
snapshot restoration does not happen. -/
theorem bulk_import_undo_leaves_import_applied :
    Tui.localPairs
      (Tui.handleUndo (Tui.saveBulkImport importUndoScenario (("A=1").toList))) =
        [(("A"), ("1"))] ∧
    Tui.localPairs importUndoScenario = [] ∧
    (Tui.handleUndo (Tui.saveBulkImport importUndoScenario (("A=1").toList))).toast =
      ("Import undo not fully supported") := by
  decide

namespace Db

theorem getVar_SetVar (s : Store) (p pr k v p' pr' k' : String) :
    getVar (SetVar s p pr k v) p' pr' k' =
      if p = p' ∧ pr = pr' ∧ k = k' then some v else getVar s p' pr' k' := by
  unfold getVar GetVarsForPath SetVar
  rw [Aux.find?_filterB, List.find?_append, Aux.find?_filterB, Aux.find?_filterB]
  by_cases h : p = p' ∧ pr = pr' ∧ k = k'
  · obtain ⟨h1, h2, h3⟩ := h
    subst h1; subst h2; subst h3
    rw [if_pos ⟨rfl, rfl, rfl⟩]
    rw [Aux.find?_and_none]
    · simp
    · intro a ha
      simp only [Bool.and_eq_true, beq_iff_eq] at ha
      simp [ha.1.1, ha.1.2, ha.2]
  · rw [if_neg h]
    rw [Aux.find?_and_left]
    · have hnew :
        ((fun a : EnvVar => (a.path == p' && a.profile == pr') && a.key == k')
          ⟨p, pr, k, v⟩) = false := by
        simp only [Bool.and_eq_true, beq_iff_eq, Bool.and_eq_false_iff]
        by_contra hc
        simp only [Bool.and_eq_false_iff, beq_eq_false_iff_ne, ne_eq, not_or,
          not_not] at hc
        exact h ⟨hc.1.1, hc.1.2, hc.2⟩
      simp [List.find?_cons, hnew]
    · intro a ha
      simp only [Bool.and_eq_true, beq_iff_eq] at ha
      simp only [Bool.not_eq_true', Bool.and_eq_false_iff, beq_eq_false_iff_ne,
        ne_eq, Bool.not_eq_false, Bool.and_eq_true, beq_iff_eq]
      by_contra hc
      simp only [Bool.and_eq_false_iff, beq_eq_false_iff_ne, ne_eq, not_or,
        not_not] at hc
      exact h ⟨ha.1.1 ▸ hc.1.1.symm ▸ rfl, ha.1.2 ▸ hc.1.2.symm ▸ rfl,
        ha.2 ▸ hc.2.symm ▸ rfl⟩

theorem getVar_DeleteVar (s : Store) (p pr k p' pr' k' : String) :
    getVar (DeleteVar s p pr k) p' pr' k' =
      if p = p' ∧ pr = pr' ∧ k = k' then none else getVar s p' pr' k' := by
  unfold getVar GetVarsForPath DeleteVar
  rw [Aux.find?_filterB, Aux.find?_filterB, Aux.find?_filterB]
  by_cases h : p = p' ∧ pr = pr' ∧ k = k'
  · obtain ⟨h1, h2, h3⟩ := h
    subst h1; subst h2; subst h3
    rw [if_pos ⟨rfl, rfl, rfl⟩]
    rw [Aux.find?_and_none]
    · simp
    · intro a ha
      simp only [Bool.and_eq_true, beq_iff_eq] at ha
      simp [ha.1.1, ha.1.2, ha.2]
  · rw [if_neg h]
    rw [Aux.find?_and_left]
    intro a ha
    simp only [Bool.and_eq_true, beq_iff_eq] at ha
    simp only [Bool.not_eq_true', Bool.and_eq_false_iff, beq_eq_false_iff_ne,
      ne_eq, Bool.not_eq_false, Bool.and_eq_true, beq_iff_eq]
    by_contra hc
    simp only [Bool.and_eq_false_iff, beq_eq_false_iff_ne, ne_eq, not_or,
      not_not] at hc
    exact h ⟨ha.1.1 ▸ hc.1.1.symm ▸ rfl, ha.1.2 ▸ hc.1.2.symm ▸ rfl,
      ha.2 ▸ hc.2.symm ▸ rfl⟩

end Db

namespace Db

theorem getVar_SetVarsBatch (s : Store) (p pr : String)
    (vars : List (String × String)) (k : String) :
    getVar (SetVarsBatch s p pr vars) p pr k =
      ((vars.reverse.find? fun kv => kv.1 == k).map (·.2)).or (getVar s p pr k) := by
  induction vars generalizing s with
  | nil => simp [SetVarsBatch]
  | cons kv vs ih =>
    have hstep : SetVarsBatch s p pr (kv :: vs) =
        SetVarsBatch (SetVar s p pr kv.1 kv.2) p pr vs := by
      simp [SetVarsBatch, List.foldl_cons]
    rw [hstep, ih, getVar_SetVar]
    rw [List.reverse_cons, List.find?_append]
    rcases hf : vs.reverse.find? (fun q => q.1 == k) with _ | q
    · by_cases hkk : kv.1 = k
      · simp [List.find?_cons, hkk, hf]
      · have : (kv.1 == k) = false := by simp [hkk]
        simp [List.find?_cons, hf, this, hkk]
    · simp [hf]

end Db

/-- Claim C5: Set followed by Undo restores the exact prior state of
the key at the current directory (the prior value if one existed,
absence otherwise), and Delete of a locally present key followed by
Undo restores its exact prior value; in both round trips every stored
triple reads back exactly as before. -/
theorem set_delete_undo_restore_prior_state (st : Tui.TuiState)
    (k v w : String) (hk : Tui.keyRegexMatch k = true) :
    (∀ p' pr' k', Db.getVar (Tui.handleUndo (Tui.saveEdit st k v)).store p' pr' k' =
      Db.getVar st.store p' pr' k') ∧
    (Db.getVar st.store st.cwd st.profile k = some w →
      ∀ p' pr' k', Db.getVar (Tui.handleUndo (Tui.confirmDelete st k)).store p' pr' k' =
        Db.getVar st.store p' pr' k') := by
  constructor
  · intro p' pr' k'
    rcases hf : (Db.GetVarsForPath st.store st.cwd st.profile).find?
        (fun x => x.key == k) with _ | u
    · have hget : Db.getVar st.store st.cwd st.profile k = none := by
        simp [Db.getVar, hf]
      simp only [Tui.saveEdit, Tui.handleUndo, Tui.pushUndo, Tui.popUndo, hk, hf]
      simp
      simp only [Db.getVar_DeleteVar, Db.getVar_SetVar]
      by_cases h : st.cwd = p' ∧ st.profile = pr' ∧ k = k'
      · simp only [if_pos h]
        obtain ⟨h1, h2, h3⟩ := h
        rw [← h1, ← h2, ← h3, hget]
      · simp only [if_neg h]
    · have hget : Db.getVar st.store st.cwd st.profile k = some u.value := by
        simp [Db.getVar, hf]
      simp only [Tui.saveEdit, Tui.handleUndo, Tui.pushUndo, Tui.popUndo, hk, hf]
      simp
      simp only [Db.getVar_SetVar]
      by_cases h : st.cwd = p' ∧ st.profile = pr' ∧ k = k'
      · simp only [if_pos h]
        obtain ⟨h1, h2, h3⟩ := h
        rw [← h1, ← h2, ← h3, hget]
      · simp only [if_neg h]
  · intro hw p' pr' k'
    rcases hf : (Db.GetVarsForPath st.store st.cwd st.profile).find?
        (fun x => x.key == k) with _ | u
    · exfalso
      simp [Db.getVar, hf] at hw
    · have huv : u.value = w := by
        simp [Db.getVar, hf] at hw
        exact hw
      simp only [Tui.confirmDelete, Tui.handleUndo, Tui.pushUndo, Tui.popUndo, hf]
      simp
      simp only [Db.getVar_SetVar, Db.getVar_DeleteVar]
      by_cases h : st.cwd = p' ∧ st.profile = pr' ∧ k = k'
      · simp only [if_pos h]
        obtain ⟨h1, h2, h3⟩ := h
        rw [← h1, ← h2, ← h3, hw, huv]
      · simp only [if_neg h]

/-- Witness for claim C5: the set and delete round trips applied at a
concrete one-variable store. -/
theorem set_delete_undo_restore_prior_state_witness :
    Db.getVar (Tui.handleUndo (Tui.saveEdit undoScenario ("K") ("new"))).store
        ("/p") ("default") ("K") =
      Db.getVar undoScenario.store ("/p") ("default") ("K") ∧
    Db.getVar (Tui.handleUndo (Tui.confirmDelete undoScenario ("K"))).store
        ("/p") ("default") ("K") =
      Db.getVar undoScenario.store ("/p") ("default") ("K") :=
  ⟨(set_delete_undo_restore_prior_state undoScenario ("K") ("new") ("old")
      (by decide)).1 ("/p") ("default") ("K"),
   (set_delete_undo_restore_prior_state undoScenario ("K") ("new") ("old")
      (by decide)).2 (by decide) ("/p") ("default") ("K")⟩

/-- Rejected bulk import: any invalid line leaves the whole session
state unchanged except for the surfaced error. -/
theorem saveBulkImport_invalid_state (st : Tui.TuiState) (content : List Char)
    (h : (Shell.ParseEnvFile content).2 ≠ []) :
    Tui.saveBulkImport st content =
      { st with bulkError := Tui.BulkError.invalidLines (Shell.ParseEnvFile content).2 } := by
  simp [Tui.saveBulkImport, h]

/-- The parser only ever returns keys accepted by IsValidKey. -/
theorem parse_accepts_only_valid_keys (l : List Char)
    (r : List Char × List Char × List Char)
    (h : Shell.ParseKeyValueWithDesc l = some r) :
    Shell.IsValidKey r.1 = true := by
  unfold Shell.ParseKeyValueWithDesc at h
  dsimp only at h
  repeat' split at h
  all_goals simp at h
  all_goals subst h
  all_goals dsimp only
  all_goals assumption

/-- Claim C7: a key failing the identifier syntax is rejected before
any write by the Set operation (store and undo slot untouched), the
line parser never accepts an invalid key, and a bulk import containing
any invalid line leaves the store and undo slot untouched. -/
theorem invalid_keys_rejected_with_no_side_effects (st : Tui.TuiState)
    (k v : String) (hk : Shell.IsValidKey k.toList = false) :
    ((Tui.saveEdit st k v).store = st.store ∧
     (Tui.saveEdit st k v).undoStack = st.undoStack) ∧
    (∀ l r, Shell.ParseKeyValueWithDesc l = some r →
      Shell.IsValidKey r.1 = true) ∧
    (∀ content, (Shell.ParseEnvFile content).2 ≠ [] →
      (Tui.saveBulkImport st content).store = st.store ∧
      (Tui.saveBulkImport st content).undoStack = st.undoStack) := by
  refine ⟨?_, fun l r h => parse_accepts_only_valid_keys l r h, fun content hc => ?_⟩
  · have hk2 : Shell.IsValidKey k.data = false := hk
    constructor <;> simp [Tui.saveEdit, Tui.keyRegexMatch, hk2]
  · rw [saveBulkImport_invalid_state st content hc]
    exact ⟨rfl, rfl⟩

/-- Witness for claim C7 at the two invalid keys named by the spec,
against a concrete one-variable store. -/
theorem invalid_keys_rejected_witness :
    (Tui.saveEdit importUndoScenario ("123KEY") ("v")).store =
      importUndoScenario.store ∧
    (Tui.saveEdit importUndoScenario ("KEY-NAME") ("v")).store =
      importUndoScenario.store :=
  ⟨((invalid_keys_rejected_with_no_side_effects importUndoScenario ("123KEY")
      ("v") (by decide)).1).1,
   ((invalid_keys_rejected_with_no_side_effects importUndoScenario ("KEY-NAME")
      ("v") (by decide)).1).1⟩

namespace Shell

theorem mapLookup_mapInsert_same (m : List (List Char × List Char))
    (k v : List Char) : mapLookup (mapInsert m k v) k = some v := by
  unfold mapInsert mapLookup
  by_cases hmem : m.any (fun p => p.1 = k)
  · rw [if_pos hmem, List.find?_map]
    have hpt : ((fun p : List Char × List Char => decide (p.1 = k)) ∘
        fun p => if p.1 = k then (k, v) else p) =
        fun p : List Char × List Char => decide (p.1 = k) := by
      funext p
      by_cases hp : p.1 = k <;> simp [hp]
    rw [hpt]
    have hsome : (m.find? fun p => decide (p.1 = k)).isSome := by
      rw [List.find?_isSome]
      obtain ⟨q, hq, hq2⟩ := List.any_eq_true.mp hmem
      exact ⟨q, hq, hq2⟩
    obtain ⟨q0, hq0⟩ := Option.isSome_iff_exists.mp hsome
    have hq0k : q0.1 = k := by simpa using List.find?_some hq0
    rw [hq0]
    simp [hq0k]
  · rw [if_neg hmem, List.find?_append]
    have hnone : m.find? (fun p => decide (p.1 = k)) = none := by
      rw [List.find?_eq_none]
      intro x hx hc
      exact hmem (List.any_eq_true.mpr ⟨x, hx, hc⟩)
    simp [hnone]

theorem mapLookup_mapInsert_other (m : List (List Char × List Char))
    (k v k' : List Char) (h : k' ≠ k) :
    mapLookup (mapInsert m k v) k' = mapLookup m k' := by
  unfold mapInsert mapLookup
  by_cases hmem : m.any (fun p => p.1 = k)
  · rw [if_pos hmem, List.find?_map]
    have hpt : ((fun p : List Char × List Char => decide (p.1 = k')) ∘
        fun p => if p.1 = k then (k, v) else p) =
        fun p : List Char × List Char => decide (p.1 = k') := by
      funext p
      by_cases hp : p.1 = k
      · have h1 : ¬p.1 = k' := fun hc => h (hc.symm.trans hp)
        have h2 : ¬(k, v).1 = k' := fun hc => h hc.symm
        simp [hp, h1, h2]
      · simp [hp]
    rw [hpt]
    rcases hf : m.find? (fun p => decide (p.1 = k')) with _ | q
    · simp [hf]
    · have hqk : q.1 = k' := by simpa using List.find?_some hf
      have hqne : ¬q.1 = k := by rw [hqk]; exact h
      simp [hf, hqne]
  · rw [if_neg hmem, List.find?_append]
    have hkv : ¬((k, v).1 = k') := fun hc => h hc.symm
    simp [hkv]

theorem mapLookup_foldl_mapInsert (ps : List (List Char × List Char))
    (m : List (List Char × List Char)) (k : List Char) :
    mapLookup (ps.foldl (fun t q => mapInsert t q.1 q.2) m) k =
      ((ps.reverse.find? fun q => q.1 = k).map (·.2)).or (mapLookup m k) := by
  induction ps generalizing m with
  | nil => simp
  | cons q ps ih =>
    rw [List.foldl_cons, ih, List.reverse_cons, List.find?_append]
    rcases hf : ps.reverse.find? (fun r => decide (r.1 = k)) with _ | r
    · by_cases hq : q.1 = k
      · rw [← hq, mapLookup_mapInsert_same]
        simp [hf, List.find?_cons, hq]
      · rw [mapLookup_mapInsert_other _ _ _ _ (fun hc => hq hc.symm)]
        simp [hf, List.find?_cons, hq]
    · simp [hf]

theorem mapInsert_length (m : List (List Char × List Char)) (k v : List Char) :
    m.length ≤ (mapInsert m k v).length := by
  unfold mapInsert
  by_cases hmem : m.any (fun p => p.1 = k) <;> simp [hmem]

theorem foldl_mapInsert_ne_nil (ps : List (List Char × List Char))
    (m : List (List Char × List Char)) (hm : m ≠ []) :
    ps.foldl (fun t q => mapInsert t q.1 q.2) m ≠ [] := by
  induction ps generalizing m with
  | nil => simpa
  | cons q ps ih =>
    rw [List.foldl_cons]
    refine ih _ ?_
    have := mapInsert_length m q.1 q.2
    intro hc
    rw [hc] at this
    simp at this
    exact hm this

theorem foldl_mapInsert_nil_iff (ps : List (List Char × List Char)) :
    ps.foldl (fun t q => mapInsert t q.1 q.2) [] = [] ↔ ps = [] := by
  constructor
  · intro h
    cases ps with
    | nil => rfl
    | cons q ps =>
      exfalso
      rw [List.foldl_cons] at h
      refine foldl_mapInsert_ne_nil ps (mapInsert [] q.1 q.2) ?_ h
      simp [mapInsert]
  · intro h
    subst h
    rfl

theorem mapInsert_keys (m : List (List Char × List Char)) (k v : List Char) :
    (mapInsert m k v).map Prod.fst =
      if m.any (fun p => p.1 = k) then m.map Prod.fst
      else m.map Prod.fst ++ [k] := by
  unfold mapInsert
  by_cases hmem : m.any (fun p => p.1 = k)
  · rw [if_pos hmem, if_pos hmem, List.map_map]
    congr 1
    funext p
    by_cases hp : p.1 = k <;> simp [hp]
  · rw [if_neg hmem, if_neg hmem]
    simp

theorem foldl_mapInsert_keys_nodup (ps : List (List Char × List Char))
    (m : List (List Char × List Char)) (hm : (m.map Prod.fst).Nodup) :
    ((ps.foldl (fun t q => mapInsert t q.1 q.2) m).map Prod.fst).Nodup := by
  induction ps generalizing m with
  | nil => simpa
  | cons q ps ih =>
    rw [List.foldl_cons]
    refine ih _ ?_
    rw [mapInsert_keys]
    by_cases hmem : m.any (fun p => p.1 = q.1)
    · simpa [hmem]
    · rw [if_neg hmem]
      rw [List.nodup_append]
      refine ⟨hm, List.nodup_singleton _, ?_⟩
      intro x hx hxq
      rw [List.mem_singleton] at hxq
      subst hxq
      obtain ⟨p, hp, hp2⟩ := List.mem_map.mp hx
      exact absurd (List.any_eq_true.mpr ⟨p, hp, by simpa using hp2⟩) hmem

theorem reverse_find?_of_keys_nodup (m : List (List Char × List Char))
    (k : List Char) (h : (m.map Prod.fst).Nodup) :
    m.reverse.find? (fun p => p.1 = k) = m.find? (fun p => p.1 = k) := by
  induction m with
  | nil => rfl
  | cons q t ih =>
    rw [List.reverse_cons, List.find?_append]
    simp only [List.map_cons, List.nodup_cons] at h
    by_cases hq : q.1 = k
    · have htn : t.find? (fun p => decide (p.1 = k)) = none := by
        rw [List.find?_eq_none]
        intro x hx hc
        refine h.1 ?_
        rw [List.mem_map]
        exact ⟨x, hx, by rw [(by simpa using hc : x.1 = k), hq]⟩
      rw [ih h.2, htn]
      simp [List.find?_cons, hq]
    · rw [ih h.2]
      simp [List.find?_cons, hq]

theorem foldl_parseEnvLine_fst (lines : List (List Char))
    (acc : List (List Char × List Char) × List (List Char)) :
    (lines.foldl parseEnvLine acc).1 =
      (lines.filterMap fun line =>
        let t := trimSpace line
        if t = [] ∨ t.head? = some hashChar then none
        else ParseKeyValue t).foldl (fun t q => mapInsert t q.1 q.2) acc.1 := by
  induction lines generalizing acc with
  | nil => rfl
  | cons l ls ih =>
    rw [List.foldl_cons, List.filterMap_cons]
    by_cases hskip : trimSpace l = [] ∨ (trimSpace l).head? = some hashChar
    · have hstep : parseEnvLine acc l = acc := by
        simp [parseEnvLine, hskip]
      rw [hstep, ih]
      simp [hskip]
    · cases hp : ParseKeyValue (trimSpace l) with
      | none =>
        have hstep : parseEnvLine acc l = (acc.1, acc.2 ++ [trimSpace l]) := by
          simp [parseEnvLine, hskip, hp]
        rw [hstep, ih]
        simp [hskip, hp]
      | some kv =>
        have hstep : parseEnvLine acc l = (mapInsert acc.1 kv.1 kv.2, acc.2) := by
          simp [parseEnvLine, hskip, hp]
        rw [hstep, ih]
        simp [hskip, hp, List.foldl_cons]

theorem ParseEnvFile_fst (content : List Char) :
    (ParseEnvFile content).1 =
      (okPairs content).foldl (fun t q => mapInsert t q.1 q.2) [] := by
  unfold ParseEnvFile okPairs
  exact foldl_parseEnvLine_fst (splitOnNewline content) ([], [])

theorem ParseEnvFile_fst_lookup (content : List Char) (κ : List Char) :
    mapLookup (ParseEnvFile content).1 κ =
      ((okPairs content).reverse.find? fun q => q.1 = κ).map (·.2) := by
  rw [ParseEnvFile_fst, mapLookup_foldl_mapInsert]
  simp [mapLookup]

theorem ParseEnvFile_fst_keys_nodup (content : List Char) :
    (((ParseEnvFile content).1).map Prod.fst).Nodup := by
  rw [ParseEnvFile_fst]
  exact foldl_mapInsert_keys_nodup _ [] (by simp)

end Shell

/-- Claim C6: a bulk-import text with any unparseable line is rejected
whole, the invalid lines surfaced and the store untouched; otherwise
every parsed pair is applied in one batch, each key reading back the
value of its last parseable occurrence, and untouched keys keep their
prior values. -/
theorem bulk_import_all_or_nothing_last_wins (st : Tui.TuiState)
    (content : List Char) :
    ((Shell.ParseEnvFile content).2 ≠ [] →
      (Tui.saveBulkImport st content).store = st.store ∧
      (Tui.saveBulkImport st content).bulkError =
        Tui.BulkError.invalidLines (Shell.ParseEnvFile content).2) ∧
    ((Shell.ParseEnvFile content).2 = [] → ∀ k : String,
      Db.getVar (Tui.saveBulkImport st content).store st.cwd st.profile k =
        (((okPairsStr content).reverse.find? fun q => q.1 == k).map (·.2)).or
          (Db.getVar st.store st.cwd st.profile k)) := by
  constructor
  · intro h
    rw [saveBulkImport_invalid_state st content h]
    exact ⟨rfl, rfl⟩
  · intro h k
    by_cases hempty : (Shell.ParseEnvFile content).1 = []
    · have hok : Shell.okPairs content = [] := by
        refine (Shell.foldl_mapInsert_nil_iff (Shell.okPairs content)).mp ?_
        rw [← Shell.ParseEnvFile_fst]
        exact hempty
      simp [Tui.saveBulkImport, h, hempty, okPairsStr, hok]
    · have hsb : Tui.saveBulkImport st content =
          { st with
            store := Db.SetVarsBatch st.store st.cwd st.profile
              ((Shell.ParseEnvFile content).1.map fun p => (p.1.asString, p.2.asString)),
            bulkError := Tui.BulkError.clear,
            undoStack := [⟨("import"), "", "", "", false,
              (Db.GetVarsForPath st.store st.cwd st.profile).map fun v => (v.key, v.value),
              []⟩] } := by
        simp [Tui.saveBulkImport, Tui.pushUndo, h, hempty]
      rw [hsb]
      dsimp only
      rw [Db.getVar_SetVarsBatch]
      congr 1
      have hQ : ((fun q : String × String => q.1 == k) ∘
          fun p : List Char × List Char => (p.1.asString, p.2.asString)) =
          fun p : List Char × List Char => decide (p.1 = k.data) := by
        funext p
        simp only [Function.comp, List.asString]
        rcases k with ⟨kd⟩
        rw [Bool.eq_iff_iff, beq_iff_eq, decide_eq_true_eq, String.ext_iff]
      have hrev : (Shell.ParseEnvFile content).1.reverse.find?
            (fun p => decide (p.1 = k.data)) =
          (Shell.ParseEnvFile content).1.find? (fun p => decide (p.1 = k.data)) :=
        Shell.reverse_find?_of_keys_nodup _ _
          (Shell.ParseEnvFile_fst_keys_nodup content)
      have hlook := Shell.ParseEnvFile_fst_lookup content k.data
      unfold Shell.mapLookup at hlook
      have hfind : (Shell.ParseEnvFile content).1.find?
            (fun p => decide (p.1 = k.data)) =
          (Shell.okPairs content).reverse.find? (fun p => decide (p.1 = k.data)) := by
        rcases hX : (Shell.ParseEnvFile content).1.find?
            (fun p => decide (p.1 = k.data)) with _ | x
        · rcases hY : (Shell.okPairs content).reverse.find?
              (fun p => decide (p.1 = k.data)) with _ | y
          · rw [hX, hY]
          · rw [hX, hY] at hlook
            simp at hlook
        · rcases hY : (Shell.okPairs content).reverse.find?
              (fun p => decide (p.1 = k.data)) with _ | y
          · rw [hX, hY] at hlook
            simp at hlook
          · rw [hX, hY]
            rcases x with ⟨x1, x2⟩
            rcases y with ⟨y1, y2⟩
            have hx1 : x1 = k.data := by simpa using List.find?_some hX
            have hy1 : y1 = k.data := by simpa using List.find?_some hY
            rw [hX, hY] at hlook
            simp at hlook
            simp [hx1, hy1, hlook]
      unfold okPairsStr
      rw [List.reverse_map, List.reverse_map, List.find?_map, List.find?_map, hQ,
        hrev, hfind]

/-- Witness for claim C6: a rejected import with one bad line leaves
the store unchanged, and an accepted two-line import with a duplicate
key satisfies the last-occurrence-wins read-back equation. -/
theorem bulk_import_all_or_nothing_witness :
    ((Tui.saveBulkImport importUndoScenario (("A=1\nbogus line").toList)).store =
      importUndoScenario.store) ∧
    (Db.getVar (Tui.saveBulkImport importUndoScenario (("A=1\nA=2").toList)).store
        ("/p") ("default") ("A") =
      (((okPairsStr (("A=1\nA=2").toList)).reverse.find? fun q => q.1 == ("A")).map
        (·.2)).or
        (Db.getVar importUndoScenario.store ("/p") ("default") ("A"))) :=
  ⟨((bulk_import_all_or_nothing_last_wins importUndoScenario
      (("A=1\nbogus line").toList)).1 (by decide)).1,
   (bulk_import_all_or_nothing_last_wins importUndoScenario
      (("A=1\nA=2").toList)).2 (by decide) ("A")⟩

namespace Db

theorem GetVarsForPath_SetVar_other_profile (s : Store) (q pr' k v x pr : String)
    (h : pr ≠ pr') :
    GetVarsForPath (SetVar s q pr' k v) x pr = GetVarsForPath s x pr := by
  unfold GetVarsForPath SetVar
  rw [List.filter_append]
  have h1 : List.filter (fun w => w.path == x && w.profile == pr)
      [(⟨q, pr', k, v⟩ : EnvVar)] = [] := by
    simp [Ne.symm h]
  rw [h1, List.append_nil]
  refine Aux.filter_filterB_absorb s _ _ ?_
  intro a ha
  simp only [Bool.and_eq_true, beq_iff_eq] at ha
  simp [ha.2]
  exact Or.inl (Or.inr h)

theorem GetVarsForPath_DeleteVar_other_profile (s : Store) (q pr' k x pr : String)
    (h : pr ≠ pr') :
    GetVarsForPath (DeleteVar s q pr' k) x pr = GetVarsForPath s x pr := by
  unfold GetVarsForPath DeleteVar
  refine Aux.filter_filterB_absorb s _ _ ?_
  intro a ha
  simp only [Bool.and_eq_true, beq_iff_eq] at ha
  simp [ha.2]
  exact Or.inl (Or.inr h)

theorem GetVarsForPath_SetVarsBatch_other_profile (s : Store) (q pr' : String)
    (vars : List (String × String)) (x pr : String) (h : pr ≠ pr') :
    GetVarsForPath (SetVarsBatch s q pr' vars) x pr = GetVarsForPath s x pr := by
  induction vars generalizing s with
  | nil => rfl
  | cons kv vs ih =>
    have hstep : SetVarsBatch s q pr' (kv :: vs) =
        SetVarsBatch (SetVar s q pr' kv.1 kv.2) q pr' vs := by
      simp [SetVarsBatch, List.foldl_cons]
    rw [hstep, ih, GetVarsForPath_SetVar_other_profile _ _ _ _ _ _ _ h]

end Db

namespace Env

theorem Resolve_congr (s1 s2 : Db.Store) (pr : String) (chain : List String)
    (h : ∀ x, Db.GetVarsForPath s1 x pr = Db.GetVarsForPath s2 x pr) :
    Resolve s1 pr chain = Resolve s2 pr chain := by
  unfold Resolve
  suffices hgen : ∀ acc, chain.foldl (mergePath s1 pr) acc =
      chain.foldl (mergePath s2 pr) acc from hgen []
  induction chain with
  | nil => intro acc; rfl
  | cons pth rest ih =>
    intro acc
    rw [List.foldl_cons, List.foldl_cons]
    have hm : mergePath s1 pr acc pth = mergePath s2 pr acc pth := by
      unfold mergePath
      rw [h pth]
    rw [hm]
    exact ih _

end Env

/-- Claim C9: resolution under one profile is untouched by any Set,
Delete, or batch-import mutation performed under a different profile,
and the per-scope storage reads of one profile never see rows of
another: storage and mutation never mix profiles. -/
theorem profile_noninterference (s : Db.Store) (p p' : String) (hp : p ≠ p')
    (q k v : String) (vars : List (String × String)) (chain : List String) :
    (∀ x, Db.GetVarsForPath (Db.SetVar s q p' k v) x p = Db.GetVarsForPath s x p) ∧
    (∀ x, Db.GetVarsForPath (Db.DeleteVar s q p' k) x p = Db.GetVarsForPath s x p) ∧
    (∀ x, Db.GetVarsForPath (Db.SetVarsBatch s q p' vars) x p =
      Db.GetVarsForPath s x p) ∧
    Env.Resolve (Db.SetVar s q p' k v) p chain = Env.Resolve s p chain ∧
    Env.Resolve (Db.DeleteVar s q p' k) p chain = Env.Resolve s p chain ∧
    Env.Resolve (Db.SetVarsBatch s q p' vars) p chain = Env.Resolve s p chain := by
  refine ⟨fun x => Db.GetVarsForPath_SetVar_other_profile s q p' k v x p hp,
    fun x => Db.GetVarsForPath_DeleteVar_other_profile s q p' k x p hp,
    fun x => Db.GetVarsForPath_SetVarsBatch_other_profile s q p' vars x p hp,
    ?_, ?_, ?_⟩ <;>
    refine Env.Resolve_congr _ _ _ _ fun x => ?_
  · exact Db.GetVarsForPath_SetVar_other_profile s q p' k v x p hp
  · exact Db.GetVarsForPath_DeleteVar_other_profile s q p' k x p hp
  · exact Db.GetVarsForPath_SetVarsBatch_other_profile s q p' vars x p hp

/-- Witness for claim C9: a mutation under the production profile does
not change what the default profile resolves. -/
theorem profile_noninterference_witness :
    Env.Resolve (Db.SetVar [⟨("/p"), ("default"), ("K"), ("old")⟩]
        ("/p") ("production") ("K") ("v2")) ("default") [("/p")] =
      Env.Resolve [⟨("/p"), ("default"), ("K"), ("old")⟩] ("default") [("/p")] :=
  (profile_noninterference [⟨("/p"), ("default"), ("K"), ("old")⟩]
    ("default") ("production") (by decide) ("/p") ("K") ("v2") [] [("/p")]).2.2.2.1

namespace Env

theorem overlayEntry_definedAtPath (path key value : String)
    (e : Option ResolvedVar) : (overlayEntry path key value e).definedAtPath = path := by
  cases e <;> rfl

theorem findResolved_applyVar_same (acc : List ResolvedVar) (path key value : String) :
    findResolved (applyVar acc path key value) key =
      some (overlayEntry path key value (findResolved acc key)) := by
  unfold applyVar findResolved
  by_cases hmem : acc.any (fun e => e.key == key)
  · rw [if_pos hmem, List.find?_map]
    have hpt : ((fun e : ResolvedVar => e.key == key) ∘ fun e =>
        if e.key == key then
          (⟨key, value, path, true, e.definedAtPath⟩ : ResolvedVar)
        else e) = fun e : ResolvedVar => e.key == key := by
      funext e
      by_cases he : e.key = key <;> simp [he]
    rw [hpt]
    have hsome : (acc.find? fun e => e.key == key).isSome := by
      rw [List.find?_isSome]
      obtain ⟨q, hq, hq2⟩ := List.any_eq_true.mp hmem
      exact ⟨q, hq, hq2⟩
    obtain ⟨q0, hq0⟩ := Option.isSome_iff_exists.mp hsome
    have hq0k : q0.key = key := by simpa using List.find?_some hq0
    rw [hq0]
    simp [overlayEntry, hq0k]
  · rw [if_neg hmem, List.find?_append]
    have hnone : acc.find? (fun e => e.key == key) = none := by
      rw [List.find?_eq_none]
      intro x hx hc
      exact hmem (List.any_eq_true.mpr ⟨x, hx, hc⟩)
    simp [hnone, overlayEntry]

theorem findResolved_applyVar_other (acc : List ResolvedVar)
    (path key value k' : String) (h : key ≠ k') :
    findResolved (applyVar acc path key value) k' = findResolved acc k' := by
  unfold applyVar findResolved
  by_cases hmem : acc.any (fun e => e.key == key)
  · rw [if_pos hmem, List.find?_map]
    have hpt : ((fun e : ResolvedVar => e.key == k') ∘ fun e =>
        if e.key == key then
          (⟨key, value, path, true, e.definedAtPath⟩ : ResolvedVar)
        else e) = fun e : ResolvedVar => e.key == k' := by
      funext e
      by_cases he : e.key = key
      · simp [he, h]
      · simp [he]
    rw [hpt]
    rcases hf : acc.find? (fun e => e.key == k') with _ | q
    · simp [hf]
    · have hqk : q.key = k' := by simpa using List.find?_some hf
      have hqne : ¬q.key = key := by rw [hqk]; exact fun hc => h hc.symm
      simp [hf, hqne]
  · rw [if_neg hmem, List.find?_append]
    simp [h]

theorem findResolved_foldl_applyVar (vs : List Db.EnvVar)
    (acc : List ResolvedVar) (path key : String)
    (hnd : (vs.map (·.key)).Nodup) :
    findResolved (vs.foldl (fun a v => applyVar a path v.key v.value) acc) key =
      match vs.find? (fun v => v.key == key) with
      | none => findResolved acc key
      | some v => some (overlayEntry path key v.value (findResolved acc key)) := by
  induction vs generalizing acc with
  | nil => rfl
  | cons v vs ih =>
    rw [List.foldl_cons]
    simp only [List.map_cons, List.nodup_cons] at hnd
    by_cases hv : v.key = key
    · have hvs : vs.find? (fun w => w.key == key) = none := by
        rw [List.find?_eq_none]
        intro x hx hc
        refine hnd.1 ?_
        rw [List.mem_map]
        exact ⟨x, hx, by rw [(by simpa using hc : x.key = key), hv]⟩
      rw [ih _ hnd.2]
      rw [hvs]
      rw [← hv, findResolved_applyVar_same]
      simp [List.find?_cons, hv]
    · rw [ih _ hnd.2, findResolved_applyVar_other _ _ _ _ _ hv]
      simp [List.find?_cons, hv]

end Env

namespace Db

theorem wfB_GetVarsForPath_keys_nodup (s : Store) (pth profile : String)
    (h : wfB s = true) :
    ((GetVarsForPath s pth profile).map (·.key)).Nodup := by
  induction s with
  | nil => simp [GetVarsForPath]
  | cons v t ih =>
    have hsplit : (!(t.any fun w =>
        w.path == v.path && w.profile == v.profile && w.key == v.key)) = true ∧
        wfB t = true := by
      simpa [wfB, Bool.and_eq_true] using h
    have hnot := hsplit.1
    rw [Bool.not_eq_true'] at hnot
    unfold GetVarsForPath
    rw [List.filter_cons]
    by_cases hv : (v.path == pth && v.profile == profile) = true
    · rw [if_pos hv]
      simp only [Bool.and_eq_true, beq_iff_eq] at hv
      rw [List.map_cons, List.nodup_cons]
      refine ⟨?_, ih hsplit.2⟩
      intro hmem
      obtain ⟨w, hw, hwk⟩ := List.mem_map.mp hmem
      have hw2 := List.mem_filter.mp hw
      simp only [Bool.and_eq_true, beq_iff_eq] at hw2
      have : t.any (fun w =>
          w.path == v.path && w.profile == v.profile && w.key == v.key) = true := by
        refine List.any_eq_true.mpr ⟨w, hw2.1, ?_⟩
        simp [hw2.2.1, hw2.2.2, hv.1, hv.2, hwk]
      rw [this] at hnot
      cases hnot
    · rw [if_neg hv]
      exact ih hsplit.2

end Db

namespace Env

theorem findResolved_Resolve_fold (s : Db.Store) (profile key : String)
    (chain : List String) (acc : List ResolvedVar) (hwf : Db.wfB s = true) :
    findResolved (chain.foldl (mergePath s profile) acc) key =
      (chain.filter fun p => (Db.getVar s p profile key).isSome).foldl
        (overlayStep s profile key) (findResolved acc key) := by
  induction chain generalizing acc with
  | nil => rfl
  | cons pth rest ih =>
    rw [List.foldl_cons, List.filter_cons, ih]
    have hinner := findResolved_foldl_applyVar
      (Db.GetVarsForPath s pth profile) acc pth key
      (Db.wfB_GetVarsForPath_keys_nodup s pth profile hwf)
    cases hfind : (Db.GetVarsForPath s pth profile).find? (fun v => v.key == key) with
    | none =>
      have hget : Db.getVar s pth profile key = none := by
        simp [Db.getVar, hfind]
      rw [hfind] at hinner
      have hmp : findResolved (mergePath s profile acc pth) key =
          findResolved acc key := hinner
      rw [if_neg (by simp [hget]), hmp]
    | some v =>
      have hget : Db.getVar s pth profile key = some v.value := by
        simp [Db.getVar, hfind]
      rw [hfind] at hinner
      have hmp : findResolved (mergePath s profile acc pth) key =
          some (overlayEntry pth key v.value (findResolved acc key)) := hinner
      rw [if_pos (by simp [hget]), List.foldl_cons, hmp]
      have hstep : overlayStep s profile key (findResolved acc key) pth =
          some (overlayEntry pth key v.value (findResolved acc key)) := by
        unfold overlayStep
        rw [hget]
        rfl
      rw [hstep]

theorem overlay_foldl_none_iff (s : Db.Store) (profile key : String)
    (l : List String) :
    l.foldl (overlayStep s profile key) none = none ↔ l = [] := by
  induction l using List.reverseRecOn with
  | nil => simp
  | append_singleton l q ih =>
    rw [List.foldl_concat]
    unfold overlayStep
    simp

theorem overlay_foldl_definedAt (s : Db.Store) (profile key : String)
    (l : List String) (q : String) (e0 : ResolvedVar)
    (h : (l ++ [q]).foldl (overlayStep s profile key) none = some e0) :
    e0.definedAtPath = q := by
  rw [List.foldl_concat] at h
  unfold overlayStep at h
  obtain rfl := (Option.some_inj.mp h).symm
  exact overlayEntry_definedAtPath _ _ _ _

theorem overlay_foldl_characterization (s : Db.Store) (profile key : String)
    (ds : List String) (p : String) (hp : ds.getLast? = some p) :
    ds.foldl (overlayStep s profile key) none =
      some ⟨key, (Db.getVar s p profile key).getD (""), p,
        decide (2 ≤ ds.length), (ds.dropLast.getLast?).getD ("")⟩ := by
  obtain ⟨l, rfl⟩ := List.getLast?_eq_some_iff.mp hp
  rw [List.foldl_concat]
  cases hl : l.foldl (overlayStep s profile key) none with
  | none =>
    obtain rfl := (overlay_foldl_none_iff s profile key l).mp hl
    unfold overlayStep overlayEntry
    simp [List.dropLast_concat]
  | some e0 =>
    have hl_ne : l ≠ [] := by
      intro hc
      subst hc
      simp at hl
    obtain ⟨l', q, rfl⟩ : ∃ l' q, l = l' ++ [q] := by
      rcases List.eq_nil_or_concat l with rfl | ⟨l', q, hq⟩
      · exact absurd rfl hl_ne
      · exact ⟨l', q, by rw [hq, List.concat_eq_append]⟩
    have hdef : e0.definedAtPath = q :=
      overlay_foldl_definedAt s profile key l' q e0 hl
    unfold overlayStep overlayEntry
    simp only [List.dropLast_concat, List.getLast?_concat, Option.getD_some, hdef]
    have hlen : (decide (2 ≤ ((l' ++ [q]) ++ [p]).length)) = true := by
      simp [List.length_append]
    rw [hlen]

end Env

/-- Claim C1: for every chain and key defined at one or more chain
scopes, the merge of Resolve yields the value from the deepest
defining scope, marks the key overridden exactly when more than one
chain scope defines it, and records as override origin the
immediately preceding definer (the zero value, an empty path, when
there is none). The store satisfies the primary-key invariant and the
chain, as built by BuildChain, has no duplicate scopes. -/
theorem resolve_deepest_wins_with_provenance (s : Db.Store)
    (profile : String) (chain : List String) (key p : String)
    (hwf : Db.wfB s = true) (hnd : chain.Nodup)
    (hp : (Env.definers s profile chain key).getLast? = some p) :
    Env.findResolved (Env.Resolve s profile chain) key =
      some ⟨key, (Db.getVar s p profile key).getD (""), p,
        decide (2 ≤ (Env.definers s profile chain key).length),
        ((Env.definers s profile chain key).dropLast.getLast?).getD ("")⟩ := by
  unfold Env.Resolve
  rw [Env.findResolved_Resolve_fold s profile key chain [] hwf]
  exact Env.overlay_foldl_characterization s profile key
    (Env.definers s profile chain key) p hp

/-- Witness for claim C1 at a three-definer chain: the deepest value
wins, the entry is overridden, and the origin is the middle scope, not
the root. -/
theorem resolve_deepest_wins_witness :
    Env.findResolved (Env.Resolve c1Store ("default") c1Chain) ("K") =
      some ⟨("K"), (Db.getVar c1Store ("/a/b/c") ("default") ("K")).getD (""),
        ("/a/b/c"),
        decide (2 ≤ (Env.definers c1Store ("default") c1Chain ("K")).length),
        ((Env.definers c1Store ("default") c1Chain ("K")).dropLast.getLast?).getD ("")⟩ :=
  resolve_deepest_wins_with_provenance c1Store ("default") c1Chain ("K")
    ("/a/b/c") (by decide) (by decide) (by decide)

namespace Shell

theorem escapeSingleQuote_eq_self (V : List Char) (h : squote ∉ V) :
    escapeSingleQuote V = V := by
  induction V with
  | nil => rfl
  | cons c t ih =>
    simp only [List.mem_cons, not_or] at h
    unfold escapeSingleQuote at ih ⊢
    rw [List.flatMap_cons, if_neg (fun hc => h.1 hc.symm), ih h.2]
    rfl

theorem isKeyChar_not_space (c : Char) (h : isKeyChar c = true) :
    isSpaceChar c = false := by
  simp only [isKeyChar, isKeyStart, Bool.or_eq_true, Bool.and_eq_true,
    decide_eq_true_eq] at h
  simp only [isSpaceChar, Bool.or_eq_false_iff, decide_eq_false_iff_not]
  omega

theorem isKeyChar_ne_eqChar (c : Char) (h : isKeyChar c = true) :
    (decide (c = Char.ofNat 61)) = false := by
  simp only [isKeyChar, isKeyStart, Bool.or_eq_true, Bool.and_eq_true,
    decide_eq_true_eq] at h
  simp only [decide_eq_false_iff_not]
  intro hc
  have : c.toNat = 61 := by rw [hc]; rfl
  omega

theorem IsValidKey_all_keyChar (K : List Char) (h : IsValidKey K = true) :
    ∀ c ∈ K, isKeyChar c = true := by
  cases K with
  | nil => simp [IsValidKey] at h
  | cons c0 rest =>
    simp only [IsValidKey, Bool.and_eq_true, List.all_eq_true] at h
    intro c hc
    rcases List.mem_cons.mp hc with rfl | hc2
    · unfold isKeyChar
      rw [h.1]
      rfl
    · exact h.2 c hc2

theorem trimSpace_eq_self_of_ends (l : List Char)
    (h1 : l.head?.all fun c => !isSpaceChar c)
    (h2 : l.getLast?.all fun c => !isSpaceChar c) :
    trimSpace l = l := by
  unfold trimSpace dropTrailingSpace
  rw [Aux.dropWhile_eq_self_of_head l _ h1]
  rw [Aux.dropWhile_eq_self_of_head l.reverse _ (by rw [List.head?_reverse]; exact h2)]
  exact List.reverse_reverse l

theorem trimSpace_eq_self_of_all (l : List Char)
    (h : ∀ c ∈ l, isSpaceChar c = false) : trimSpace l = l := by
  refine trimSpace_eq_self_of_ends l ?_ ?_
  · cases hh : l.head? with
    | none => rfl
    | some c =>
      have hm : c ∈ l := by
        cases l with
        | nil => simp at hh
        | cons a t =>
          simp only [List.head?_cons, Option.some.injEq] at hh
          exact hh ▸ List.mem_cons_self a t
      simp [h c hm]
  · cases hh : l.getLast? with
    | none => rfl
    | some c =>
      have hm : c ∈ l := List.mem_of_getLast?_eq_some hh
      simp [h c hm]

theorem findIdx?_append_all_false (p : Char → Bool) (xs ys : List Char)
    (h : ∀ c ∈ xs, p c = false) :
    (xs ++ ys).findIdx? p = (ys.findIdx? p).map (· + xs.length) := by
  have hnone : xs.findIdx? p = none := by
    rw [List.findIdx?_eq_none_iff]
    intro x hx
    simp [h x hx]
  rw [List.findIdx?_append, hnone, Option.none_or]

end Shell

namespace Shell

theorem parseValueAndDescription_quoted (V : List Char) (hV : squote ∉ V) :
    parseValueAndDescription (squote :: (V ++ [squote])) = (V, []) := by
  unfold parseValueAndDescription
  rw [if_neg (by simp)]
  have htrim : trimSpace (squote :: (V ++ [squote])) = squote :: (V ++ [squote]) := by
    refine trimSpace_eq_self_of_ends _ (by simp; decide) ?_
    have : (squote :: (V ++ [squote])) = (squote :: V) ++ [squote] := by simp
    rw [this, List.getLast?_concat]
    simp
    decide
  rw [htrim]
  have hidx : (V ++ [squote]).findIdx? (fun d => d = squote) = some V.length := by
    rw [findIdx?_append_all_false _ V [squote]
      (fun c hc => by simp; exact fun he => hV (he ▸ hc))]
    have : ([squote] : List Char).findIdx? (fun d => d = squote) = some 0 := by
      simp [List.findIdx?_cons]
    rw [this]
    simp
  have hcond : 2 ≤ (squote :: (V ++ [squote])).length ∧
      (squote = squote ∨ squote = dquote) := by
    constructor
    · simp
    · exact Or.inl rfl
  simp only [hidx, hcond, if_pos, ite_true, List.length_cons, List.length_append]
  rw [List.take_left' rfl]
  have hdrop : (V ++ [squote]).drop (V.length + 1) = [] := by
    apply List.drop_eq_nil_of_le
    simp
  rw [hdrop]
  simp [trimSpace, dropTrailingSpace]

theorem ParseKeyValueWithDesc_FormatExport (K V : List Char)
    (hK : IsValidKey K = true) (hV : squote ∉ V) :
    ParseKeyValueWithDesc (FormatExport K V) = some (K, V, []) := by
  have hKchars := IsValidKey_all_keyChar K hK
  have hKspace : ∀ c ∈ K, isSpaceChar c = false :=
    fun c hc => isKeyChar_not_space c (hKchars c hc)
  have hKne : ∀ c ∈ K, (fun c => decide (c = Char.ofNat 61)) c = false :=
    fun c hc => isKeyChar_ne_eqChar c (hKchars c hc)
  have hesc : escapeSingleQuote V = V := escapeSingleQuote_eq_self V hV
  have hL : FormatExport K V =
      ("export ").toList ++ (K ++ (Char.ofNat 61 :: (squote :: (V ++ [squote])))) := by
    unfold FormatExport
    rw [hesc]
    simp [List.append_assoc]
  have hhead : (FormatExport K V).head? = some ('e') := by
    rw [hL]
    rfl
  have hlast : (FormatExport K V).getLast? = some squote := by
    have h2 : FormatExport K V =
        (("export ").toList ++ (K ++ (Char.ofNat 61 :: (squote :: V)))) ++ [squote] := by
      unfold FormatExport
      rw [hesc]
      simp [List.append_assoc]
    rw [h2, List.getLast?_concat]
  have htrimL : trimSpace (FormatExport K V) = FormatExport K V := by
    refine trimSpace_eq_self_of_ends _ ?_ ?_
    · rw [hhead]
      simp
      decide
    · rw [hlast]
      simp
      decide
  have hne : ¬(FormatExport K V = [] ∨
      (FormatExport K V).head? = some hashChar) := by
    rintro (h1 | h2)
    · rw [h1] at hhead
      simp at hhead
    · rw [hhead] at h2
      simp at h2
      exact absurd h2 (by decide)
  have hpre : ("export ").toList.isPrefixOf (FormatExport K V) = true := by
    rw [List.isPrefixOf_iff_prefix, hL]
    exact List.prefix_append _ _
  have hdrop7 : (FormatExport K V).drop 7 =
      K ++ (Char.ofNat 61 :: (squote :: (V ++ [squote]))) := by
    rw [hL, show (7 : Nat) = ("export ").toList.length from rfl, List.drop_left]
  obtain ⟨c0, K', rfl⟩ : ∃ c0 K', K = c0 :: K' := by
    cases K with
    | nil => simp [IsValidKey] at hK
    | cons a b => exact ⟨a, b, rfl⟩
  have htrimR : trimSpace ((c0 :: K') ++
      (Char.ofNat 61 :: (squote :: (V ++ [squote])))) =
      (c0 :: K') ++ (Char.ofNat 61 :: (squote :: (V ++ [squote]))) := by
    refine trimSpace_eq_self_of_ends _ ?_ ?_
    · simp only [List.cons_append, List.head?_cons, Option.all_some]
      rw [Bool.not_eq_true']
      exact hKspace c0 (List.mem_cons_self c0 K')
    · have h3 : (c0 :: K') ++ (Char.ofNat 61 :: (squote :: (V ++ [squote]))) =
          ((c0 :: K') ++ (Char.ofNat 61 :: (squote :: V))) ++ [squote] := by
        simp [List.append_assoc]
      rw [h3, List.getLast?_concat]
      simp
      decide
  have hidx : ((c0 :: K') ++
      (Char.ofNat 61 :: (squote :: (V ++ [squote])))).findIdx?
        (fun c => c = Char.ofNat 61) = some (c0 :: K').length := by
    rw [findIdx?_append_all_false _ _ _ hKne]
    have h0 : (Char.ofNat 61 :: (squote :: (V ++ [squote]))).findIdx?
        (fun c => c = Char.ofNat 61) = some 0 := by
      simp [List.findIdx?_cons]
    rw [h0]
    simp
  have htake : ((c0 :: K') ++
      (Char.ofNat 61 :: (squote :: (V ++ [squote])))).take (c0 :: K').length =
      c0 :: K' := List.take_left _ _
  have htrimK : trimSpace (c0 :: K') = c0 :: K' :=
    trimSpace_eq_self_of_all _ hKspace
  have hdropK : ((c0 :: K') ++
      (Char.ofNat 61 :: (squote :: (V ++ [squote])))).drop ((c0 :: K').length + 1) =
      squote :: (V ++ [squote]) := by
    rw [← List.drop_drop, List.drop_left]
    simp
  have hpv := parseValueAndDescription_quoted V hV
  unfold ParseKeyValueWithDesc
  rw [htrimL, if_neg hne, hpre]
  simp only [ite_true, if_pos]
  rw [hdrop7, htrimR, hidx]
  simp only
  rw [htake, htrimK, if_pos hK, hdropK, hpv]

end Shell

/-- Claim C2 counterexample: formatting the example produces exactly
the line the claim displays, but parsing that line back stops at the
first closing quote and returns the truncated value it, not the full
original value: the round trip fails for values containing single
quotes. -/
theorem parse_format_example_truncates :
    Shell.FormatExport (("KEY").toList) itsATest = expectedExportLine ∧
    Shell.ParseKeyValue (Shell.FormatExport (("KEY").toList) itsATest) =
      some ((("KEY").toList), (("it").toList)) ∧
    (("it").toList) ≠ itsATest := by
  decide

/-- Claim C2 as amended: the round trip Parse after Format returns the
key and value exactly for every valid key and every value free of
single quotes, values with spaces and the empty value included; the
description comes back empty. -/
theorem parse_format_roundtrip (K V : List Char)
    (hK : Shell.IsValidKey K = true) (hV : Shell.squote ∉ V) :
    Shell.ParseKeyValue (Shell.FormatExport K V) = some (K, V) := by
  unfold Shell.ParseKeyValue
  rw [Shell.ParseKeyValueWithDesc_FormatExport K V hK hV]
  rfl

/-- Witness for the amended claim C2: a value with a space and the
empty value both round trip. -/
theorem parse_format_roundtrip_witness :
    Shell.ParseKeyValue (Shell.FormatExport (("KEY").toList) (("a b").toList)) =
      some ((("KEY").toList), (("a b").toList)) ∧
    Shell.ParseKeyValue (Shell.FormatExport (("KEY").toList) []) =
      some ((("KEY").toList), []) :=
  ⟨parse_format_roundtrip (("KEY").toList) (("a b").toList) (by decide) (by decide),
   parse_format_roundtrip (("KEY").toList) [] (by decide) (by decide)⟩
